import Mathlib

/-!
Shallow embedding of the CosyVoiceDesktop orchestration core
(src/core/models.py, src/core/worker.py, src/core/api.py,
src/ui/main_window.py, src/ui/text_edit.py) together with proofs of the
specification claims about it.

Strings manipulated character-by-character by the Python code are modelled
as `List Char`; Python `int` is modelled as `Int`; filesystem and
transcoder effects are passed in as explicit oracles.
-/

namespace CosyVoice

/-! ### Python string primitives -/

/-- Whitespace as recognised by Python `str.strip()` / truthiness of
`char.strip()`, restricted to the ASCII range used by this code base. -/
def pyIsSpace (c : Char) : Bool :=
  c == ' ' || c == '\t' || c == '\n' || c == '\r' || c == '\x0b' || c == '\x0c'

/-- Drop leading whitespace (left half of Python `str.strip()`). -/
def trimL : List Char → List Char
  | [] => []
  | c :: rest => if pyIsSpace c then trimL rest else c :: rest

/-- Drop trailing whitespace (right half of Python `str.strip()`). -/
def trimR (l : List Char) : List Char :=
  (trimL l.reverse).reverse

/-- Python `str.strip()` on a list of characters. -/
def pyStrip (l : List Char) : List Char :=
  trimR (trimL l)

/-- Does `s` start with `pat`? (Used to model Python's `in` on strings.) -/
def startsWith : List Char → List Char → Bool
  | [], _ => true
  | _ :: _, [] => false
  | p :: ps, c :: cs => p == c && startsWith ps cs

/-- Python `pat in s` substring test on lists of characters. -/
def containsSub (pat : List Char) : List Char → Bool
  | [] => startsWith pat []
  | c :: rest => startsWith pat (c :: rest) || containsSub pat rest

/-- One left-to-right pass of Python `text.replace(cc, c)` where `cc` is the
two-character string `[c, c]`: every non-overlapping occurrence of the pair
is replaced by the single character. -/
def replacePair (c : Char) : List Char → List Char
  | [] => []
  | [a] => [a]
  | a :: b :: rest =>
    if a == c && b == c then c :: replacePair c rest
    else a :: replacePair c (b :: rest)

/-- Does the list contain two adjacent copies of `c`
(Python `cc in text`)? -/
def hasPair (c : Char) : List Char → Bool
  | [] => false
  | [_] => false
  | a :: b :: rest => (a == c && b == c) || hasPair c (b :: rest)

/-- Python `while cc in text: text = text.replace(cc, c)`.  Each iteration of
the source loop removes at least one character, so running it
`fuel = length` many times reaches the loop's fixed point. -/
def collapsePair (c : Char) : Nat → List Char → List Char
  | 0, l => l
  | n + 1, l => if hasPair c l then collapsePair c n (replacePair c l) else l

/-! ### Task/Segment/Version data model (src/core/models.py) -/

/-- `TaskSegment` from src/core/models.py, restricted to the fields the
synthesis pipeline reads or writes (`voice_config`, `mode`,
`instruct_text` and `seed` are carried along unchanged by every operation
modelled here and are omitted). -/
structure TaskSegment where
  index : Int
  text : List Char
  run_count : Int
  versions : List (List String)
  current_version : Int
  current_segment : Int
  current_audio : Option String
deriving DecidableEq, Repr

/-- A freshly constructed segment (`TaskSegment.__init__`). -/
def TaskSegment.mk0 (index : Int) (text : List Char) : TaskSegment :=
  { index := index
    text := text
    run_count := 0
    versions := []
    current_version := 0
    current_segment := 0
    current_audio := none }

/-- `TaskSegment.add_version`: append the file list as a new version if it is
non-empty (Python `if files:`) and select the newest version's first chunk. -/
def TaskSegment.add_version (s : TaskSegment) (files : List String) : TaskSegment :=
  match files with
  | [] => s
  | f :: rest =>
    let newVersions := s.versions ++ [f :: rest]
    { s with
      versions := newVersions
      run_count := (newVersions.length : Int)
      current_version := (newVersions.length : Int) - 1
      current_segment := 0
      current_audio := some f }

/-- `TaskSegment.set_audio`: select version `version`, chunk `segment`
(both 1-based); returns the updated segment and the Python return value. -/
def TaskSegment.set_audio (s : TaskSegment) (version segment : Int) : TaskSegment × Bool :=
  let ver_idx := version - 1
  let seg_idx := segment - 1
  if 0 ≤ ver_idx ∧ ver_idx < (s.versions.length : Int) ∧
     0 ≤ seg_idx ∧ seg_idx < ((s.versions.getD ver_idx.toNat []).length : Int) then
    ({ s with
        current_version := ver_idx
        current_segment := seg_idx
        current_audio := some ((s.versions.getD ver_idx.toNat []).getD seg_idx.toNat "") },
     true)
  else (s, false)

/-- Running several generation outcomes through `add_version` in order. -/
def applyRuns (s : TaskSegment) (runs : List (List String)) : TaskSegment :=
  runs.foldl TaskSegment.add_version s

/-- The selection invariant maintained by the model: either no version exists
yet, or `current_version` indexes a real version. -/
abbrev validSel (s : TaskSegment) : Prop :=
  s.versions = [] ∨ (0 ≤ s.current_version ∧ s.current_version < (s.versions.length : Int))

/-! ### Generation worker (src/core/worker.py) -/

/-- The nine characters removed by `AudioGenerationWorker.sanitize_filename`
(Python `invalid_chars = '<>:"/\\|?*'`). -/
def invalidFilenameChars : List Char :=
  ['<', '>', ':', '\x22', '/', '\\', '|', '?', '*']

/-- `AudioGenerationWorker.sanitize_filename`: strip Windows-illegal
characters and control characters, turn whitespace into underscores,
collapse runs of underscores, trim underscores, default to "audio". -/
def sanitize_filename (text : List Char) : List Char :=
  let t1 := text.filter (fun c => !(invalidFilenameChars.contains c))
  let t2 := t1.filter (fun c => 32 ≤ c.toNat)
  let t3 := t2.map (fun c => if c == ' ' then '_' else c)
  let t4 := t3.map (fun c => if c == '\n' then '_' else c)
  let t5 := t4.map (fun c => if c == '\t' then '_' else c)
  let t6 := collapsePair '_' t5.length t5
  let t7 := (t6.dropWhile (· == '_')).reverse.dropWhile (· == '_') |>.reverse
  match t7 with
  | [] => "audio".toList
  | _ => t7

/-- `AudioGenerationWorker.generate_filename`:
`f"{segment.index}_{version}_{text_preview}_{sub_index+1}.wav"` with
`text_preview = sanitize_filename(segment.text[:10])`. -/
def generate_filename (seg : TaskSegment) (sub_index : Nat) (version : Int) : String :=
  toString seg.index ++ "_" ++ toString version ++ "_" ++
    String.mk (sanitize_filename (seg.text.take 10)) ++ "_" ++
    toString (sub_index + 1) ++ ".wav"

/-- One segment submitted to `AudioGenerationWorker.run`: its `TaskSegment`,
whether its reference audio exists on disk, and how many chunks the
inference generator yields for it. -/
structure WorkerSeg where
  seg : TaskSegment
  promptOk : Bool
  chunks : Nat
deriving DecidableEq

/-- The cooperative stop flag of the worker, read at segment granularity and
at chunk granularity.  `k` is the number of reads that still observe
`is_running = True` before `stop()` takes effect; `cnt` counts the reads
performed so far, so a read observes `True` exactly when `cnt < k`.

The chunk loop of `run` (`for sub_idx, result in enumerate(...)`): per
yielded chunk, read the flag (break if cleared), otherwise save the file
and accumulate it.  Returns the accumulated files and the read counter. -/
def chunkLoop (k : Nat) (seg : TaskSegment) (version : Int) :
    Nat → Nat → List String → List String × Nat
  | cnt, 0, acc => (acc, cnt)
  | cnt, n + 1, acc =>
    if cnt < k then
      chunkLoop k seg version (cnt + 1) n (acc ++ [generate_filename seg acc.length version])
    else (acc, cnt + 1)

/-- Body of the per-segment part of `AudioGenerationWorker.run` (after the
segment-level flag check): skip the segment when its reference audio is
missing, otherwise run the chunk loop and commit the files written so far
as a new version whenever at least one chunk was written
(`if segment_files: segment.add_version(segment_files)`). -/
def processSegment (k : Nat) (cnt : Nat) (w : WorkerSeg) :
    TaskSegment × List String × Nat :=
  if !w.promptOk then (w.seg, [], cnt)
  else
    let version := w.seg.run_count + 1
    let (files, cnt') := chunkLoop k w.seg version cnt w.chunks []
    match files with
    | [] => (w.seg, [], cnt')
    | f :: rest => (w.seg.add_version (f :: rest), f :: rest, cnt')

/-- The segment loop of `AudioGenerationWorker.run`: read the flag before
each segment (break if cleared, leaving the remaining segments untouched),
otherwise process the segment. -/
def runLoop (k : Nat) : Nat → List WorkerSeg → List TaskSegment × Nat
  | cnt, [] => ([], cnt)
  | cnt, w :: rest =>
    if cnt < k then
      let (seg', _, cnt') := processSegment k (cnt + 1) w
      let (segs, cnt'') := runLoop k cnt' rest
      (seg' :: segs, cnt'')
    else (w.seg :: rest.map WorkerSeg.seg, cnt + 1)

/-- `AudioGenerationWorker.run`: process the segments, then emit `finished`
(the job-completed event) only if the stop flag is still set
(`if self.is_running: self.finished.emit(...)`).  Returns the final state of
every segment and whether `finished` was emitted. -/
def worker_run (k : Nat) (ws : List WorkerSeg) : List TaskSegment × Bool :=
  let (segs, cnt) := runLoop k 0 ws
  (segs, decide (cnt < k))

/-- The file names the chunk loop writes for chunks `0, …, m-1` of a run of
`seg` at version number `version`. -/
def filesUpTo (seg : TaskSegment) (version : Int) (m : Nat) : List String :=
  (List.range m).map (fun i => generate_filename seg i version)

/-! ### Merge selection (src/ui/main_window.py, `merge_all_audio`) -/

/-- One iteration of the file-collection loop of
`MainWindow.merge_all_audio`: skip the segment if it has no versions,
otherwise extend the accumulated list with the chunk files of
`versions[current_version]` provided the index is in range. -/
def mergeStep (acc : List String) (seg : TaskSegment) : List String :=
  match seg.versions with
  | [] => acc
  | _ =>
    if 0 ≤ seg.current_version ∧ seg.current_version < (seg.versions.length : Int) then
      acc ++ seg.versions.getD seg.current_version.toNat []
    else acc

/-- The file-collection loop of `MainWindow.merge_all_audio` over the plan's
segments in order. -/
def files_to_merge (segments : List TaskSegment) : List String :=
  segments.foldl mergeStep []

/-- The spec's selection rule, stated in its own words: the concatenation,
in segment order, of the currently selected version's chunk files of every
segment that has at least one version; version-less segments contribute
nothing. -/
def specMergeFiles (segments : List TaskSegment) : List String :=
  segments.flatMap
    (fun seg =>
      if seg.versions.isEmpty then []
      else seg.versions.getD seg.current_version.toNat [])

/-! ### HTTP text sanitizer (src/core/api.py, `clean_text`) -/

/-- The single-character punctuation/whitespace/bracket entries of
`allowed_chars` in `clean_text` (the source also inserts the two-character
string `", "` into the set; it can never compare equal to a single
character and is therefore dropped here). -/
def allowedPunct : List Char :=
  [' ', '，', '。', '！', '？', '；', '：', '\x22', '、',
   ',', '.', '!', '?', ';', ':', '\x27', '-', '—', '～', '…',
   '\n', '\t', '(', ')', '（', '）', '[', ']', '【', '】', '\x7b', '\x7d']

/-- Membership in the `allowed_chars` set built by `clean_text`:
CJK ideographs U+4E00–U+9FFF, ASCII letters and digits, and the fixed
punctuation list. -/
def inAllowlist (c : Char) : Bool :=
  (0x4E00 ≤ c.toNat && c.toNat ≤ 0x9FFF) ||
  (0x61 ≤ c.toNat && c.toNat ≤ 0x7A) ||
  (0x41 ≤ c.toNat && c.toNat ≤ 0x5A) ||
  (0x30 ≤ c.toNat && c.toNat ≤ 0x39) ||
  allowedPunct.contains c

/-- `clean_text`: keep a character if it is in the allowlist **or** its code
point exceeds 127 (and it is not one of `\x00 \x01 \x02`, a vacuous extra
condition since those code points are below 128); then collapse runs of
spaces and strip. -/
def clean_text (text : List Char) : List Char :=
  match text with
  | [] => []
  | _ =>
    let cleaned := text.filter
      (fun c => inAllowlist c || (127 < c.toNat && !(['\x00', '\x01', '\x02'].contains c)))
    let collapsed := collapsePair ' ' cleaned.length cleaned
    pyStrip collapsed

/-! ### Prompt formatting and mode dispatch (src/core/api.py `_inference`,
src/core/worker.py `get_inference_function`) -/

def endofpromptMarker : List Char := "<|endofprompt|>".toList

def systemPreamble : List Char := "You are a helpful assistant.".toList

/-- The ZeroShot (and Repair) prompt-formatting transform applied when the
loaded model is the newer generation: if the reference transcript lacks the
end-of-prompt marker, prepend the fixed preamble and the marker
(`f'You are a helpful assistant.<|endofprompt|>{prompt_text}'`). -/
def zero_shot_prompt_format (prompt_text : List Char) : List Char :=
  if containsSub endofpromptMarker prompt_text then prompt_text
  else systemPreamble ++ endofpromptMarker ++ prompt_text

/-- The Instruct prompt-formatting transform: append the marker if missing,
then prefix `'You are a helpful assistant. '` if the preamble is absent. -/
def instruct_prompt_format (instruct_text : List Char) : List Char :=
  let t1 :=
    if containsSub endofpromptMarker instruct_text then instruct_text
    else instruct_text ++ endofpromptMarker
  if containsSub systemPreamble t1 then t1
  else systemPreamble ++ (' ' :: t1)

/-- The model call selected by `AudioGenerationWorker.get_inference_function`
for a given segment mode. -/
inductive WorkerCall where
  | zeroShot
  | crossLingual
  | instruct2
deriving DecidableEq

/-- `get_inference_function`, keyed on `segment.mode`: 零样本复制 → zero
shot, 精细控制 → cross lingual, 指令控制 → instruct2, 语音修补 → zero
shot, anything else → zero shot (the default fallback). -/
def worker_get_inference (mode : String) : WorkerCall :=
  if mode = "零样本复制" then .zeroShot
  else if mode = "精细控制" then .crossLingual
  else if mode = "指令控制" then .instruct2
  else if mode = "语音修补" then .zeroShot
  else .zeroShot

/-- The character-profile configuration dictionary fields read by the HTTP
bridge's `_inference` (empty string models Python `None`/missing). -/
structure HttpCharConfig where
  mode : String
  prompt_audio : String
  prompt_text : String
  instruct_text : String
deriving DecidableEq

/-- Outcome of the HTTP bridge's `_inference` dispatch: which model call it
selects, or why it returns `None` without calling the model. -/
inductive HttpDispatch where
  | zeroShotCall
  | instructCall
  | crossLingualCall
  | missingAudio
  | missingText
  | missingInstruct
  | unknownMode
deriving DecidableEq

/-- The alias table of `_inference`
(`mode_mapping = {'zero-shot': …, 'fine-grained': …, 'instruction': …}`,
applied as `mode_mapping.get(mode, mode)`). -/
def mode_mapping (mode : String) : String :=
  if mode = "zero-shot" then "零样本复制"
  else if mode = "fine-grained" then "精细控制"
  else if mode = "instruction" then "指令控制"
  else mode

/-- The mode-resolution and dispatch skeleton of `_inference`:
default the mode from the profile, normalise it through the alias table,
then select a model call after the per-mode precondition checks; any other
mode hits the `Unknown mode` branch and returns `None`.
`fsExists` is the `os.path.exists` oracle. -/
def http_inference_route (fsExists : String → Bool) (cfg : HttpCharConfig)
    (mode? : Option String) : HttpDispatch :=
  let m0 := match mode? with
    | none => cfg.mode
    | some m => m
  let m := mode_mapping m0
  if m = "零样本复制" then
    if cfg.prompt_audio = "" ∨ fsExists cfg.prompt_audio = false then .missingAudio
    else if cfg.prompt_text = "" then .missingText
    else .zeroShotCall
  else if m = "指令控制" then
    if cfg.prompt_audio = "" ∨ fsExists cfg.prompt_audio = false then .missingAudio
    else if cfg.instruct_text = "" then .missingInstruct
    else .instructCall
  else if m = "精细控制" then
    if cfg.prompt_audio = "" ∨ fsExists cfg.prompt_audio = false then .missingAudio
    else .crossLingualCall
  else .unknownMode

/-! ### Speed change (src/core/api.py, `speed_change_ffmpeg` and the
post-processing step of `_inference`) -/

/-- The tempo ratio `speed_change_ffmpeg` hands to the transcoder's
`atempo` filter: values outside [0.5, 2.0] are clamped to the nearest
bound (`speed = max(0.5, min(2.0, speed))`). -/
def speed_change_atempo (speed : ℚ) : ℚ :=
  if speed < 0.5 ∨ speed > 2 then max 0.5 (min 2 speed) else speed

/-- The speed post-processing step of `_inference`: nothing happens when the
requested speed is exactly 1.0; otherwise the transcoder is invoked once
with the clamped ratio, and on transcoder failure the original audio is
returned unchanged.  `transcode r = some out` models a successful
`speed_change_ffmpeg` call at ratio `r`; the second component lists the
ratios with which the transcoder was invoked. -/
def inference_speed_step {α : Type} (transcode : ℚ → Option α)
    (speed : ℚ) (audioData : α) : α × List ℚ :=
  if speed ≠ 1 then
    match transcode (speed_change_atempo speed) with
    | some newAudio => (newAudio, [speed_change_atempo speed])
    | none => (audioData, [speed_change_atempo speed])
  else (audioData, [])

/-! ### Text segmentation (src/ui/text_edit.py, `get_text_segments`) -/

/-- A voice profile as seen by the segmenter (only `name` is compared). -/
structure Profile where
  name : String
deriving DecidableEq, Repr

/-- Resolution of a character's tag to a profile
(`config_name and config_name in self.voice_configs` falls back to the
first profile in insertion order; no profiles at all → `none`, the
character is skipped entirely). -/
def resolveConfig (configs : List Profile) (tag : Option String) : Option Profile :=
  match tag with
  | some nm =>
    if nm != "" && (configs.find? (fun p => p.name == nm)).isSome then
      configs.find? (fun p => p.name == nm)
    else configs.head?
  | none => configs.head?

/-- The run-emission step of `get_text_segments`
(`if current_segment.strip(): segments.append(...)`, also used for the
final flush where `current_config` may be `None`). -/
def flushRun (cur : List Char) (cfg : Option Profile) : List (List Char × Profile) :=
  match cfg with
  | some c0 => if pyStrip cur ≠ [] then [(pyStrip cur, c0)] else []
  | none => []

/-- The run-closing test of `get_text_segments`
(`current_config is not None and (current_config.name != char_config.name
or char == '\n')`). -/
def runCloses (cfg : Option Profile) (ccfg : Profile) (ch : Char) : Bool :=
  match cfg with
  | some c0 => (c0.name != ccfg.name) || (ch == '\n')
  | none => false

/-- The character scan of `get_text_segments`: `cur` is
`current_segment`, `cfg` is `current_config`; a run closes when the tagged
profile differs from the run's profile or a newline is met; newlines are
never appended; non-blank characters open/extend the run; other whitespace
extends a non-empty run only. -/
def segLoop (configs : List Profile) :
    List (Char × Option String) → List Char → Option Profile →
    List (List Char × Profile)
  | [], cur, cfg => flushRun cur cfg
  | (ch, tag) :: rest, cur, cfg =>
    match resolveConfig configs tag with
    | none => segLoop configs rest cur cfg
    | some ccfg =>
      let doClose : Bool := runCloses cfg ccfg ch
      let flushed : List (List Char × Profile) :=
        if doClose then flushRun cur cfg else []
      let cur1 := if doClose then [] else cur
      let cfg1 := if doClose then none else cfg
      if ch == '\n' then flushed ++ segLoop configs rest cur1 cfg1
      else if !(pyIsSpace ch) then
        flushed ++ segLoop configs rest (cur1 ++ [ch])
          (match cfg1 with
           | none => some ccfg
           | some c => some c)
      else if cur1 ≠ [] then flushed ++ segLoop configs rest (cur1 ++ [ch]) cfg1
      else flushed ++ segLoop configs rest cur1 cfg1

/-- `CustomTextEdit.get_text_segments` over pre-tagged characters: the
whole-text emptiness guard followed by the scan. -/
def get_text_segments (configs : List Profile)
    (text : List (Char × Option String)) : List (List Char × Profile) :=
  if pyStrip (text.map Prod.fst) = [] then []
  else segLoop configs text [] none

/-- Tag every character of a text with the same profile name. -/
def tagAll (text : List Char) (nm : String) : List (Char × Option String) :=
  text.map (fun ch => (ch, some nm))

/-! ## Helper lemmas -/

theorem trimL_idem (l : List Char) : trimL (trimL l) = trimL l := by
  induction l with
  | nil => rfl
  | cons c rest ih =>
    by_cases h : pyIsSpace c = true
    · simp [trimL, h, ih]
    · simp [trimL, h]

theorem trimL_suffix (l : List Char) : ∃ s, s ++ trimL l = l := by
  induction l with
  | nil => exact ⟨[], rfl⟩
  | cons c rest ih =>
    by_cases h : pyIsSpace c = true
    · obtain ⟨s, hs⟩ := ih
      exact ⟨c :: s, by simp [trimL, h, hs]⟩
    · exact ⟨[], by simp [trimL, h]⟩

theorem trimL_head {l : List Char} {c : Char} {rest : List Char}
    (h : trimL l = c :: rest) : pyIsSpace c = false := by
  induction l with
  | nil => simp [trimL] at h
  | cons a as ih =>
    by_cases ha : pyIsSpace a = true
    · rw [trimL, if_pos ha] at h
      exact ih h
    · rw [trimL, if_neg ha] at h
      injection h with h1 h2
      subst h1
      simpa using ha

theorem mem_trimL {l : List Char} {a : Char} (h : a ∈ trimL l) : a ∈ l := by
  induction l with
  | nil => simp [trimL] at h
  | cons c rest ih =>
    by_cases hc : pyIsSpace c = true
    · rw [trimL, if_pos hc] at h
      exact List.mem_cons_of_mem _ (ih h)
    · rwa [trimL, if_neg hc] at h

theorem trimR_idem (l : List Char) : trimR (trimR l) = trimR l := by
  unfold trimR
  rw [List.reverse_reverse, trimL_idem]

theorem trimR_cons {m : List Char} {c : Char} {rest : List Char}
    (h : trimR m = c :: rest) : ∃ t, m = c :: t := by
  obtain ⟨s, hs⟩ := trimL_suffix m.reverse
  have h2 : trimL m.reverse = (c :: rest).reverse := by
    have := congrArg List.reverse h
    simpa [trimR] using this
  refine ⟨rest ++ s.reverse, ?_⟩
  have hm : m.reverse = s ++ (c :: rest).reverse := by rw [← h2, hs]
  have := congrArg List.reverse hm
  simpa using this

theorem mem_trimR {m : List Char} {a : Char} (h : a ∈ trimR m) : a ∈ m := by
  unfold trimR at h
  rw [List.mem_reverse] at h
  have := mem_trimL h
  rwa [List.mem_reverse] at this

theorem pyStrip_idem (l : List Char) : pyStrip (pyStrip l) = pyStrip l := by
  unfold pyStrip
  have key : trimL (trimR (trimL l)) = trimR (trimL l) := by
    cases h : trimR (trimL l) with
    | nil => simp [trimL]
    | cons c rest =>
      obtain ⟨t, ht⟩ := trimR_cons h
      have hc : pyIsSpace c = false := trimL_head ht
      simp [trimL, hc]
  rw [key, trimR_idem]

theorem mem_pyStrip {l : List Char} {a : Char} (h : a ∈ pyStrip l) : a ∈ l :=
  mem_trimL (mem_trimR h)

theorem startsWith_append_self (pat r : List Char) :
    startsWith pat (pat ++ r) = true := by
  induction pat with
  | nil => rfl
  | cons p ps ih => simp [startsWith, ih]

theorem containsSub_sandwich (pat l r : List Char) :
    containsSub pat (l ++ pat ++ r) = true := by
  induction l with
  | nil =>
    cases pat with
    | nil =>
      cases r with
      | nil => rfl
      | cons c cs => simp [containsSub, startsWith]
    | cons p ps =>
      have hsw := startsWith_append_self (p :: ps) r
      simp only [List.nil_append, List.cons_append] at *
      rw [containsSub, hsw, Bool.true_or]
  | cons c l' ih =>
    simp only [List.cons_append] at *
    rw [containsSub, ih, Bool.or_true]

theorem containsSub_append_of_right (pat l r : List Char)
    (h : containsSub pat r = true) : containsSub pat (l ++ r) = true := by
  induction l with
  | nil => simpa using h
  | cons c l' ih =>
    simp only [List.cons_append]
    rw [containsSub, ih, Bool.or_true]

theorem add_version_versions_cons (s : TaskSegment) (f : String) (fs : List String) :
    (s.add_version (f :: fs)).versions = s.versions ++ [f :: fs] := rfl

theorem applyRuns_versions (runs : List (List String)) (s : TaskSegment)
    (h : ∀ r ∈ runs, r ≠ []) :
    (applyRuns s runs).versions = s.versions ++ runs := by
  induction runs generalizing s with
  | nil => simp [applyRuns]
  | cons r rest ih =>
    have hr : r ≠ [] := h r (List.mem_cons_self r rest)
    match r, hr with
    | f :: fs, _ =>
      have hstep : applyRuns s ((f :: fs) :: rest) = applyRuns (s.add_version (f :: fs)) rest := by
        simp [applyRuns]
      rw [hstep, ih _ (fun q hq => h q (List.mem_cons_of_mem _ hq)),
        add_version_versions_cons]
      simp

theorem applyRuns_selection (runs : List (List String)) (s : TaskSegment)
    (hne : runs ≠ []) (h : ∀ r ∈ runs, r ≠ []) :
    (applyRuns s runs).current_version = (s.versions.length : Int) + runs.length - 1 ∧
    (applyRuns s runs).current_segment = 0 := by
  induction runs generalizing s with
  | nil => exact absurd rfl hne
  | cons r rest ih =>
    have hr : r ≠ [] := h r (List.mem_cons_self r rest)
    match r, hr with
    | f :: fs, _ =>
      have hstep : applyRuns s ((f :: fs) :: rest) = applyRuns (s.add_version (f :: fs)) rest := by
        simp [applyRuns]
      rw [hstep]
      cases rest with
      | nil =>
        simp [applyRuns, TaskSegment.add_version]
      | cons r2 rest2 =>
        have := ih (s.add_version (f :: fs)) (by simp)
          (fun q hq => h q (List.mem_cons_of_mem _ hq))
        rw [add_version_versions_cons] at this
        refine ⟨?_, this.2⟩
        rw [this.1]
        simp
        ring

theorem mergeStep_append (acc : List String) (seg : TaskSegment) :
    mergeStep acc seg = acc ++ mergeStep [] seg := by
  unfold mergeStep
  cases seg.versions with
  | nil => simp
  | cons v vs =>
    by_cases h : 0 ≤ seg.current_version ∧ seg.current_version < ((v :: vs).length : Int)
    · rw [if_pos h, if_pos h]
      simp
    · rw [if_neg h, if_neg h]
      simp

theorem foldl_mergeStep (segments : List TaskSegment) :
    ∀ acc, segments.foldl mergeStep acc = acc ++ segments.foldl mergeStep [] := by
  induction segments with
  | nil => intro acc; simp
  | cons seg rest ih =>
    intro acc
    rw [List.foldl_cons, List.foldl_cons, ih (mergeStep acc seg),
      ih (mergeStep [] seg), mergeStep_append acc seg]
    simp

theorem filesUpTo_length (seg : TaskSegment) (v : Int) (m : Nat) :
    (filesUpTo seg v m).length = m := by
  simp [filesUpTo]

theorem filesUpTo_succ (seg : TaskSegment) (v : Int) (m : Nat) :
    filesUpTo seg v m ++ [generate_filename seg m v] = filesUpTo seg v (m + 1) := by
  simp [filesUpTo, List.range_succ]

theorem chunkLoop_run (k : Nat) (seg : TaskSegment) (v : Int) :
    ∀ (n cnt j : Nat), cnt ≤ k →
      chunkLoop k seg v cnt n (filesUpTo seg v j) =
        if n ≤ k - cnt then (filesUpTo seg v (j + n), cnt + n)
        else (filesUpTo seg v (j + (k - cnt)), k + 1) := by
  intro n
  induction n with
  | zero =>
    intro cnt j hck
    rw [if_pos (Nat.zero_le _)]
    simp [chunkLoop]
  | succ m ih =>
    intro cnt j hck
    by_cases hc : cnt < k
    · have step : chunkLoop k seg v cnt (m + 1) (filesUpTo seg v j) =
          chunkLoop k seg v (cnt + 1) m (filesUpTo seg v (j + 1)) := by
        simp only [chunkLoop, if_pos hc, filesUpTo_length, filesUpTo_succ]
      rw [step, ih (cnt + 1) (j + 1) hc]
      by_cases hm : m + 1 ≤ k - cnt
      · rw [if_pos (by omega : m ≤ k - (cnt + 1)), if_pos hm,
          show j + 1 + m = j + (m + 1) from by omega,
          show cnt + 1 + m = cnt + (m + 1) from by omega]
      · rw [if_neg (by omega : ¬ m ≤ k - (cnt + 1)), if_neg hm,
          show j + 1 + (k - (cnt + 1)) = j + (k - cnt) from by omega]
    · simp only [chunkLoop]
      rw [if_neg hc, if_neg (by omega : ¬ m + 1 ≤ k - cnt),
        show j + (k - cnt) = j from by omega,
        show cnt + 1 = k + 1 from by omega]

theorem mem_replacePair (ch : Char) :
    ∀ (l : List Char) (a : Char), a ∈ replacePair ch l → a ∈ l
  | [], a, h => by simp [replacePair] at h
  | [b], a, h => by simpa [replacePair] using h
  | b :: c :: rest, a, h => by
    rw [replacePair] at h
    by_cases hb : (b == ch && c == ch) = true
    · rw [if_pos hb] at h
      rcases List.mem_cons.mp h with h1 | h2
      · subst h1
        have : b = a := by
          have := (Bool.and_eq_true ..).mp hb
          exact eq_of_beq this.1
        rw [← this]
        exact List.mem_cons_self _ _
      · exact List.mem_cons_of_mem _ (List.mem_cons_of_mem _ (mem_replacePair ch rest a h2))
    · rw [if_neg hb] at h
      rcases List.mem_cons.mp h with h1 | h2
      · subst h1
        exact List.mem_cons_self _ _
      · exact List.mem_cons_of_mem _ (mem_replacePair ch (c :: rest) a h2)

theorem mem_collapsePair (ch : Char) :
    ∀ (n : Nat) (l : List Char) (a : Char), a ∈ collapsePair ch n l → a ∈ l
  | 0, _, _, h => h
  | n + 1, l, a, h => by
    rw [collapsePair] at h
    by_cases hp : hasPair ch l = true
    · rw [if_pos hp] at h
      exact mem_replacePair ch l a (mem_collapsePair ch n (replacePair ch l) a h)
    · rwa [if_neg hp] at h

theorem flushRun_good {cur : List Char} {cfg : Option Profile} {s : List Char}
    {p : Profile} (hcur : '\n' ∉ cur) (h : (s, p) ∈ flushRun cur cfg) :
    pyStrip s = s ∧ s ≠ [] ∧ '\n' ∉ s := by
  cases cfg with
  | none => simp [flushRun] at h
  | some c0 =>
    simp only [flushRun] at h
    by_cases hg : pyStrip cur ≠ []
    · rw [if_pos hg] at h
      simp at h
      obtain ⟨rfl, rfl⟩ := h
      exact ⟨pyStrip_idem cur, hg, fun hm => hcur (mem_pyStrip hm)⟩
    · rw [if_neg hg] at h
      simp at h

theorem segLoop_good (configs : List Profile) :
    ∀ (input : List (Char × Option String)) (cur : List Char) (cfg : Option Profile),
      '\n' ∉ cur → ∀ (s : List Char) (p : Profile),
      (s, p) ∈ segLoop configs input cur cfg →
      pyStrip s = s ∧ s ≠ [] ∧ '\n' ∉ s := by
  intro input
  induction input with
  | nil =>
    intro cur cfg hcur s p h
    simp only [segLoop] at h
    exact flushRun_good hcur h
  | cons hd tl ih =>
    intro cur cfg hcur s p h
    obtain ⟨ch, tag⟩ := hd
    cases hres : resolveConfig configs tag with
    | none =>
      simp only [segLoop, hres] at h
      exact ih cur cfg hcur s p h
    | some ccfg =>
      simp only [segLoop, hres] at h
      by_cases hcl : runCloses cfg ccfg ch = true
      · simp only [hcl, if_true] at h
        by_cases hnl : (ch == '\n') = true
        · simp only [hnl, if_true] at h
          rcases List.mem_append.mp h with hL | hR
          · exact flushRun_good hcur hL
          · exact ih [] none (List.not_mem_nil _) s p hR
        · simp only [hnl, if_false, Bool.false_eq_true] at h
          have hch : ch ≠ '\n' := by
            intro hq
            rw [hq] at hnl
            simp at hnl
          by_cases hsp : pyIsSpace ch = true
          · simp only [hsp, Bool.not_true, if_false, Bool.false_eq_true] at h
            simp only [ne_eq, not_true_eq_false, if_false, reduceIte] at h
            rcases List.mem_append.mp h with hL | hR
            · exact flushRun_good hcur hL
            · exact ih [] none (List.not_mem_nil _) s p hR
          · simp only [hsp, Bool.not_false, if_true] at h
            rcases List.mem_append.mp h with hL | hR
            · exact flushRun_good hcur hL
            · refine ih ([] ++ [ch]) (some ccfg) ?_ s p hR
              intro hm
              simp at hm
              exact hch hm.symm
      · simp only [hcl, Bool.false_eq_true, if_false] at h
        rw [Bool.not_eq_true] at hcl
        simp only [hcl, Bool.false_eq_true, if_false, List.nil_append] at h
        by_cases hnl : (ch == '\n') = true
        · simp only [hnl, if_true] at h
          exact ih cur cfg hcur s p h
        · simp only [hnl, Bool.false_eq_true, if_false] at h
          have hch : ch ≠ '\n' := by
            intro hq
            rw [hq] at hnl
            simp at hnl
          have hcur2 : '\n' ∉ cur ++ [ch] := by
            intro hm
            rcases List.mem_append.mp hm with hm | hm
            · exact hcur hm
            · simp at hm
              exact hch hm.symm
          by_cases hsp : pyIsSpace ch = true
          · simp only [hsp, Bool.not_true, Bool.false_eq_true, if_false] at h
            by_cases hce : cur ≠ []
            · simp only [if_pos hce] at h
              exact ih (cur ++ [ch]) cfg hcur2 s p h
            · simp only [hce, if_false, reduceIte] at h
              exact ih cur cfg hcur s p h
          · simp only [hsp, Bool.not_false, if_true] at h
            cases cfg with
            | none => exact ih (cur ++ [ch]) (some ccfg) hcur2 s p h
            | some c => exact ih (cur ++ [ch]) (some c) hcur2 s p h

theorem resolveConfig_single (P : Profile) (t : Option String) :
    resolveConfig [P] t = some P := by
  cases t with
  | none => rfl
  | some nm =>
    cases hb : (P.name == nm) with
    | true =>
      have hf : List.find? (fun p => p.name == nm) [P] = some P := by
        simp [List.find?, hb]
      simp [resolveConfig, hf]
    | false =>
      have hf : List.find? (fun p => p.name == nm) [P] = none := by
        simp [List.find?, hb]
      simp [resolveConfig, hf]

/-! ## Claim theorems -/

/-- C7: the ZeroShot prompt-formatting transform (prepend the fixed system
preamble and end-of-prompt marker when the marker is absent) and the
Instruct transform (append the marker if missing, prefix the preamble if
absent) are idempotent: applying either transform twice yields the same
string as applying it once. -/
theorem prompt_format_idempotent :
    (∀ s, zero_shot_prompt_format (zero_shot_prompt_format s) = zero_shot_prompt_format s) ∧
    (∀ s, instruct_prompt_format (instruct_prompt_format s) = instruct_prompt_format s) := by
  constructor
  · intro s
    by_cases h : containsSub endofpromptMarker s = true
    · simp [zero_shot_prompt_format, h]
    · have h2 : containsSub endofpromptMarker
          (systemPreamble ++ (endofpromptMarker ++ s)) = true := by
        have := containsSub_sandwich endofpromptMarker systemPreamble s
        simpa [List.append_assoc] using this
      simp [zero_shot_prompt_format, h, h2]
  · intro s
    by_cases h1 : containsSub endofpromptMarker s = true
    · by_cases h2 : containsSub systemPreamble s = true
      · simp [instruct_prompt_format, h1, h2]
      · have hm : containsSub endofpromptMarker (systemPreamble ++ ' ' :: s) = true := by
          have he : systemPreamble ++ ' ' :: s = (systemPreamble ++ [' ']) ++ s := by simp
          rw [he]
          exact containsSub_append_of_right _ _ _ h1
        have hp : containsSub systemPreamble (systemPreamble ++ ' ' :: s) = true := by
          have := containsSub_sandwich systemPreamble [] (' ' :: s)
          simpa using this
        simp [instruct_prompt_format, h1, h2, hm, hp]
    · by_cases h2 : containsSub systemPreamble (s ++ endofpromptMarker) = true
      · have hm : containsSub endofpromptMarker (s ++ endofpromptMarker) = true := by
          have := containsSub_sandwich endofpromptMarker s []
          simpa using this
        simp [instruct_prompt_format, h1, h2, hm]
      · have hm : containsSub endofpromptMarker
            (systemPreamble ++ ' ' :: (s ++ endofpromptMarker)) = true := by
          have he : systemPreamble ++ ' ' :: (s ++ endofpromptMarker) =
              (systemPreamble ++ [' ']) ++ (s ++ endofpromptMarker) := by simp
          rw [he]
          exact containsSub_append_of_right _ _ _
            (by simpa using containsSub_sandwich endofpromptMarker s [])
        have hp : containsSub systemPreamble
            (systemPreamble ++ ' ' :: (s ++ endofpromptMarker)) = true := by
          have := containsSub_sandwich systemPreamble [] (' ' :: (s ++ endofpromptMarker))
          simpa using this
        simp [instruct_prompt_format, h1, h2, hm, hp]

/-- C3 counterexample: for sequenceIndex=3, versionNumber=2,
text "Hello World", chunkNumber=0 the produced filename is **not**
`3_2_HelloWorld_1.wav` — the sanitizer replaces the space with an
underscore instead of stripping it. -/
theorem generate_filename_counterexample :
    generate_filename (TaskSegment.mk0 3 "Hello World".toList) 0 2 ≠
      "3_2_HelloWorld_1.wav" := by
  decide

/-- C3 (amended): the generated audio filename is
`{sequenceIndex}_{versionNumber}_{sanitizedTextPreview}_{chunkNumber+1}.wav`
where the preview is the first 10 characters of the segment text with
filesystem-illegal characters removed and whitespace turned into (collapsed)
underscores; for sequenceIndex=3, versionNumber=2, text "Hello World",
chunkNumber=0 the produced filename is exactly `3_2_Hello_Worl_1.wav`. -/
theorem generate_filename_hello_world :
    generate_filename (TaskSegment.mk0 3 "Hello World".toList) 0 2 =
      "3_2_Hello_Worl_1.wav" ∧
    sanitize_filename ("Hello World".toList.take 10) = "Hello_Worl".toList := by
  constructor <;> rfl

/-- C2: `add_version` with a non-empty file list appends exactly one version
(leaving the existing ones unchanged) and resets the selection to the newest
version's first chunk regardless of the previous selection; with an empty
list it changes nothing; consequently after N successful runs on a fresh
segment `versions` has length N and the selection is version N, chunk 1. -/
theorem add_version_append_only :
    (∀ s : TaskSegment, s.add_version [] = s) ∧
    (∀ (s : TaskSegment) (f : String) (rest : List String),
      (s.add_version (f :: rest)).versions = s.versions ++ [f :: rest] ∧
      (s.add_version (f :: rest)).current_version = (s.versions.length : Int) ∧
      (s.add_version (f :: rest)).current_segment = 0 ∧
      (s.add_version (f :: rest)).current_audio = some f ∧
      (s.add_version (f :: rest)).run_count = (s.versions.length : Int) + 1) ∧
    (∀ (s0 : TaskSegment) (runs : List (List String)),
      s0.versions = [] → (∀ r ∈ runs, r ≠ []) →
      (applyRuns s0 runs).versions = runs ∧
      (runs ≠ [] →
        (applyRuns s0 runs).current_version = (runs.length : Int) - 1 ∧
        (applyRuns s0 runs).current_segment = 0)) := by
  refine ⟨fun s => rfl, ?_, ?_⟩
  · intro s f rest
    refine ⟨rfl, ?_, rfl, rfl, ?_⟩ <;> simp [TaskSegment.add_version]
  · intro s0 runs h0 hne
    constructor
    · rw [applyRuns_versions runs s0 hne, h0]
      simp
    · intro hruns
      have := applyRuns_selection runs s0 hruns hne
      rw [h0] at this
      simpa using this

/-- C10: `set_audio` with a 1-based (version, chunk) pair succeeds exactly
when both indices are in range; on success it moves the selection to that
pair (and touches nothing else), on failure it leaves the segment
unchanged. -/
theorem set_audio_spec (s : TaskSegment) (version segment : Int) :
    ((s.set_audio version segment).2 = true ↔
      1 ≤ version ∧ version ≤ (s.versions.length : Int) ∧
      1 ≤ segment ∧
      segment ≤ ((s.versions.getD (version - 1).toNat []).length : Int)) ∧
    ((s.set_audio version segment).2 = false → (s.set_audio version segment).1 = s) ∧
    ((s.set_audio version segment).2 = true →
      (s.set_audio version segment).1.current_version = version - 1 ∧
      (s.set_audio version segment).1.current_segment = segment - 1 ∧
      (s.set_audio version segment).1.current_audio =
        some ((s.versions.getD (version - 1).toNat []).getD (segment - 1).toNat "") ∧
      (s.set_audio version segment).1.versions = s.versions ∧
      (s.set_audio version segment).1.index = s.index ∧
      (s.set_audio version segment).1.run_count = s.run_count) := by
  unfold TaskSegment.set_audio
  by_cases hC : 0 ≤ version - 1 ∧ version - 1 < (s.versions.length : Int) ∧
      0 ≤ segment - 1 ∧
      segment - 1 < ((s.versions.getD (version - 1).toNat []).length : Int)
  · rw [if_pos hC]
    refine ⟨⟨fun _ => ?_, fun _ => rfl⟩, fun h => absurd h (by simp),
      fun _ => ⟨rfl, rfl, rfl, rfl, rfl, rfl⟩⟩
    omega
  · rw [if_neg hC]
    refine ⟨⟨fun h => absurd h (by simp), fun hb => ?_⟩, fun _ => rfl,
      fun h => absurd h (by simp)⟩
    exfalso
    apply hC
    omega

/-- C9: a requested speed ratio outside [0.5, 2.0] is clamped to the nearest
bound before reaching the transcoder's tempo filter (so speed=3.0 behaves as
2.0 and still yields an output — the transcoded audio on success, the
original on transcoder failure); with speed exactly 1.0 the transcoder is
never invoked and the audio is returned unchanged. -/
theorem speed_clamp_spec :
    (∀ speed : ℚ, speed < 0.5 ∨ 2 < speed →
      speed_change_atempo speed = max 0.5 (min 2 speed) ∧
      0.5 ≤ speed_change_atempo speed ∧ speed_change_atempo speed ≤ 2) ∧
    speed_change_atempo 3 = 2 ∧
    (∀ (α : Type) (transcode : ℚ → Option α) (audioData : α),
      inference_speed_step transcode 1 audioData = (audioData, [])) ∧
    (∀ (α : Type) (transcode : ℚ → Option α) (audioData : α),
      (inference_speed_step transcode 3 audioData).2 = [2] ∧
      (inference_speed_step transcode 3 audioData).1 = (transcode 2).getD audioData) := by
  have h3 : speed_change_atempo 3 = 2 := by
    rw [speed_change_atempo, if_pos (Or.inr (by norm_num)),
      min_eq_left (by norm_num), max_eq_right (by norm_num)]
  refine ⟨?_, h3, ?_, ?_⟩
  · intro speed hs
    have he : speed_change_atempo speed = max 0.5 (min 2 speed) := by
      rw [speed_change_atempo, if_pos]
      rcases hs with h | h
      · exact Or.inl h
      · exact Or.inr h
    refine ⟨he, ?_, ?_⟩
    · rw [he]
      exact le_max_left _ _
    · rw [he]
      exact max_le (by norm_num) (min_le_left _ _)
  · intro α transcode audioData
    simp [inference_speed_step]
  · intro α transcode audioData
    rw [inference_speed_step, if_pos (by norm_num), h3]
    cases transcode 2 <;> simp

/-- C8: the coordinator path dispatches the Repair mode (语音修补) to a
zero-shot-style synthesis call, but the HTTP bridge's dispatcher has no
branch for it — for every filesystem state and every profile configuration
the resolved Repair mode falls through to the `Unknown mode` failure,
contradicting the bridge's own docstring, which lists 语音修补 among the
supported modes. -/
theorem repair_mode_dispatch_divergence :
    worker_get_inference "语音修补" = WorkerCall.zeroShot ∧
    (∀ (fsExists : String → Bool) (cfg : HttpCharConfig),
      http_inference_route fsExists cfg (some "语音修补") = HttpDispatch.unknownMode) ∧
    mode_mapping "语音修补" = "语音修补" := by
  refine ⟨rfl, ?_, rfl⟩
  intro fsExists cfg
  rfl

/-- C4 counterexample: `clean_text` keeps the section sign U+00A7, which is
not in the allowlist — characters above code point 127 survive whether or
not the allowlist contains them, so not every output character belongs to
the allowlist. -/
theorem clean_text_counterexample :
    '§' ∈ clean_text "ab§".toList ∧ inAllowlist '§' = false ∧
    clean_text "ab§".toList = "ab§".toList := by
  refine ⟨?_, by decide, by decide⟩
  decide

/-- C4 (amended): every character of the HTTP text sanitizer's output either
belongs to the allowlist or has a code point above 127; ASCII characters
outside the allowlist are silently dropped from the text (never causing a
rejection), while non-ASCII characters all pass through. -/
theorem clean_text_allowlist :
    (∀ (text : List Char) (c : Char), c ∈ clean_text text →
      inAllowlist c = true ∨ 127 < c.toNat) ∧
    (∀ (text : List Char) (c : Char), c.toNat ≤ 127 → inAllowlist c = false →
      c ∉ clean_text text) := by
  have main : ∀ (text : List Char) (c : Char), c ∈ clean_text text →
      inAllowlist c = true ∨ 127 < c.toNat := by
    intro text c hc
    match text, hc with
    | [], hc => simp [clean_text] at hc
    | t :: ts, hc =>
      simp only [clean_text] at hc
      have h1 := mem_pyStrip hc
      have h2 := mem_collapsePair ' ' _ _ _ h1
      have h3 := (List.mem_filter.mp h2).2
      rcases Bool.or_eq_true .. |>.mp h3 with h | h
      · exact Or.inl h
      · right
        have := (Bool.and_eq_true ..).mp h
        exact of_decide_eq_true this.1
  refine ⟨main, ?_⟩
  intro text c hle hout hc
  rcases main text c hc with h | h
  · rw [hout] at h
    exact Bool.false_ne_true h
  · omega

/-- C5: whenever every segment's selection is valid (which holds for every
segment the program can build: fresh segments satisfy it and both
`add_version` and `set_audio` preserve it), the merge loop collects exactly
the concatenation, in segment order, of the chunk files of each segment's
currently selected version in chunk order, with version-less segments
contributing nothing. -/
theorem merge_selected_version :
    (∀ segments : List TaskSegment, (∀ seg ∈ segments, validSel seg) →
      files_to_merge segments = specMergeFiles segments) ∧
    (∀ (index : Int) (text : List Char), validSel (TaskSegment.mk0 index text)) ∧
    (∀ (s : TaskSegment) (files : List String), validSel s →
      validSel (s.add_version files)) ∧
    (∀ (s : TaskSegment) (v c : Int), validSel s →
      validSel ((s.set_audio v c).1)) := by
  refine ⟨?_, ?_, ?_, ?_⟩
  · intro segments
    induction segments with
    | nil => intro _; rfl
    | cons seg rest ih =>
      intro hv
      have hseg := hv seg (List.mem_cons_self _ _)
      have hrest := ih (fun q hq => hv q (List.mem_cons_of_mem _ hq))
      rw [files_to_merge, List.foldl_cons, foldl_mergeStep, ← files_to_merge, hrest]
      have hhead : mergeStep [] seg =
          (if seg.versions.isEmpty then []
           else seg.versions.getD seg.current_version.toNat []) := by
        rcases hseg with h0 | h0
        · rw [mergeStep, h0]
          simp
        · rw [mergeStep]
          cases hv2 : seg.versions with
          | nil => simp
          | cons v vs =>
            rw [hv2] at h0
            rw [if_pos h0]
            simp
      rw [hhead]
      rfl
  · intro index text
    exact Or.inl rfl
  · intro s files hv
    cases files with
    | nil => exact hv
    | cons f fs =>
      right
      rw [add_version_versions_cons]
      constructor
      · show (0 : Int) ≤ ((s.versions ++ [f :: fs]).length : Int) - 1
        simp
      · show ((s.versions ++ [f :: fs]).length : Int) - 1 < ((s.versions ++ [f :: fs]).length : Int)
        omega
  · intro s v c hv
    unfold TaskSegment.set_audio
    by_cases hC : 0 ≤ v - 1 ∧ v - 1 < (s.versions.length : Int) ∧
        0 ≤ c - 1 ∧ c - 1 < ((s.versions.getD (v - 1).toNat []).length : Int)
    · rw [if_pos hC]
      right
      exact ⟨hC.1, hC.2.1⟩
    · rw [if_neg hC]
      exact hv

/-- C6: under a single profile P a newline always closes the current run —
segmenting "foo\nbar" yields exactly [("foo", P), ("bar", P)] in text order
— and, in general, every emitted run is trimmed of leading/trailing
whitespace, is non-empty after trimming, and never contains a newline. -/
theorem newline_always_splits :
    (∀ P : Profile,
      get_text_segments [P] (tagAll "foo\nbar".toList P.name) =
        [("foo".toList, P), ("bar".toList, P)]) ∧
    (∀ (configs : List Profile) (text : List (Char × Option String))
        (s : List Char) (p : Profile), (s, p) ∈ get_text_segments configs text →
      pyStrip s = s ∧ s ≠ [] ∧ '\n' ∉ s) := by
  constructor
  · intro P
    have hres := resolveConfig_single P
    have hl1 : "foo\nbar".toList = ['f', 'o', 'o', '\n', 'b', 'a', 'r'] := rfl
    have hl2 : "foo".toList = ['f', 'o', 'o'] := rfl
    have hl3 : "bar".toList = ['b', 'a', 'r'] := rfl
    rw [hl1, hl2, hl3]
    have hmap : (tagAll ['f', 'o', 'o', '\n', 'b', 'a', 'r'] P.name).map Prod.fst =
        ['f', 'o', 'o', '\n', 'b', 'a', 'r'] := by
      simp [tagAll]
    unfold get_text_segments
    rw [hmap, if_neg (by decide)]
    simp [tagAll, segLoop, hres, runCloses, flushRun, pyIsSpace, pyStrip, trimR, trimL]
  · intro configs text s p h
    unfold get_text_segments at h
    by_cases hg : pyStrip (text.map Prod.fst) = []
    · rw [if_pos hg] at h
      simp at h
    · rw [if_neg hg] at h
      exact segLoop_good configs text [] none (List.not_mem_nil _) s p h

/-- C6 witness: instantiating the general trimming statement at a concrete
segmentation.  The run "foo" emitted for the concrete text is trimmed,
non-empty and newline-free. -/
theorem newline_always_splits_witness :
    pyStrip "foo".toList = "foo".toList ∧ "foo".toList ≠ [] ∧
      '\n' ∉ "foo".toList :=
  newline_always_splits.2 [⟨"P"⟩] (tagAll "foo\nbar".toList "P")
    "foo".toList ⟨"P"⟩ (by decide)

/-- C1 counterexample: stopping the worker between chunk writes (the flag
reads `True` twice — once before the segment, once before the first chunk —
and then `False`) leaves the in-flight segment with a freshly appended
*partial* version holding the one chunk written so far, even though its
versions list was empty before the run; `finished` is (correctly) not
emitted. -/
theorem worker_cancel_counterexample :
    (worker_run 2 [⟨TaskSegment.mk0 1 "hello".toList, true, 2⟩]).1.map
        TaskSegment.versions = [[["1_1_hello_1.wav"]]] ∧
    (TaskSegment.mk0 1 "hello".toList).versions = [] ∧
    (worker_run 2 [⟨TaskSegment.mk0 1 "hello".toList, true, 2⟩]).2 = false := by
  refine ⟨by decide, rfl, by decide⟩

/-- C1 (amended): when a run over one segment is cancelled between chunk
writes (the stop flag clears after `k` reads, with at least one chunk
written and more chunks pending, i.e. `2 ≤ k ≤ chunks`), the chunks already
written **are** committed: the segment gains exactly one (partial,
non-empty) version holding the `k - 1` files written before the stop, and
the job-completed event is not emitted. -/
theorem worker_cancel_commits_partial (seg : TaskSegment) (c k : Nat)
    (h2 : 2 ≤ k) (hc : k ≤ c) :
    (worker_run k [⟨seg, true, c⟩]).2 = false ∧
    (worker_run k [⟨seg, true, c⟩]).1 =
      [seg.add_version (filesUpTo seg (seg.run_count + 1) (k - 1))] ∧
    filesUpTo seg (seg.run_count + 1) (k - 1) ≠ [] ∧
    (filesUpTo seg (seg.run_count + 1) (k - 1)).length = k - 1 := by
  have hchunk : chunkLoop k seg (seg.run_count + 1) 1 c [] =
      (filesUpTo seg (seg.run_count + 1) (k - 1), k + 1) := by
    have h0 : ([] : List String) = filesUpTo seg (seg.run_count + 1) 0 := rfl
    rw [h0, chunkLoop_run k seg (seg.run_count + 1) c 1 0 (by omega),
      if_neg (by omega : ¬ c ≤ k - 1),
      show 0 + (k - 1) = k - 1 from by omega]
  have hfl : filesUpTo seg (seg.run_count + 1) (k - 1) ≠ [] := by
    intro h
    have hlen := filesUpTo_length seg (seg.run_count + 1) (k - 1)
    rw [h] at hlen
    simp at hlen
    omega
  obtain ⟨f, fs, hf⟩ := List.exists_cons_of_ne_nil hfl
  have hps : processSegment k 1 ⟨seg, true, c⟩ =
      (seg.add_version (filesUpTo seg (seg.run_count + 1) (k - 1)),
       filesUpTo seg (seg.run_count + 1) (k - 1), k + 1) := by
    simp only [processSegment]
    rw [hchunk, hf]
    rfl
  have hrun : runLoop k 0 [⟨seg, true, c⟩] =
      ([seg.add_version (filesUpTo seg (seg.run_count + 1) (k - 1))], k + 1) := by
    rw [runLoop, if_pos (by omega : 0 < k), hps]
    rfl
  have hwr : worker_run k [⟨seg, true, c⟩] =
      ([seg.add_version (filesUpTo seg (seg.run_count + 1) (k - 1))],
       decide (k + 1 < k)) := by
    rw [worker_run, hrun]
  rw [hwr]
  exact ⟨decide_eq_false (by omega), rfl, hfl,
    filesUpTo_length seg (seg.run_count + 1) (k - 1)⟩

/-- C1 amended witness: the concrete cancelled run of the counterexample is
an instance of the amended statement. -/
theorem worker_cancel_commits_partial_witness :
    2 ≤ 2 ∧ 2 ≤ 3 ∧
    ((worker_run 2 [⟨TaskSegment.mk0 1 "hello".toList, true, 3⟩]).2 = false ∧
      (worker_run 2 [⟨TaskSegment.mk0 1 "hello".toList, true, 3⟩]).1 =
        [(TaskSegment.mk0 1 "hello".toList).add_version
          (filesUpTo (TaskSegment.mk0 1 "hello".toList)
            ((TaskSegment.mk0 1 "hello".toList).run_count + 1) (2 - 1))] ∧
      filesUpTo (TaskSegment.mk0 1 "hello".toList)
          ((TaskSegment.mk0 1 "hello".toList).run_count + 1) (2 - 1) ≠ [] ∧
      (filesUpTo (TaskSegment.mk0 1 "hello".toList)
          ((TaskSegment.mk0 1 "hello".toList).run_count + 1) (2 - 1)).length = 2 - 1) :=
  ⟨by decide, by decide,
    worker_cancel_commits_partial (TaskSegment.mk0 1 "hello".toList) 3 2
      (by decide) (by decide)⟩

/-- C2 witness: two successful runs on a fresh segment leave exactly those
two versions, with the second selected at its first chunk. -/
theorem add_version_append_only_witness :
    (applyRuns (TaskSegment.mk0 1 "x".toList) [["a.wav"], ["b.wav"]]).versions =
      [["a.wav"], ["b.wav"]] ∧
    (([["a.wav"], ["b.wav"]] : List (List String)) ≠ [] →
      (applyRuns (TaskSegment.mk0 1 "x".toList) [["a.wav"], ["b.wav"]]).current_version =
        (([["a.wav"], ["b.wav"]] : List (List String)).length : Int) - 1 ∧
      (applyRuns (TaskSegment.mk0 1 "x".toList) [["a.wav"], ["b.wav"]]).current_segment = 0) :=
  add_version_append_only.2.2 (TaskSegment.mk0 1 "x".toList)
    [["a.wav"], ["b.wav"]] rfl (by decide)

/-- C4 witness: in `clean_text "a@b"` the surviving character 'a' satisfies
the amended membership property and the ASCII character '@' (outside the
allowlist) is dropped. -/
theorem clean_text_allowlist_witness :
    (inAllowlist 'a' = true ∨ 127 < 'a'.toNat) ∧
    '@' ∉ clean_text "a@b".toList :=
  ⟨clean_text_allowlist.1 "a@b".toList 'a' (by decide),
   clean_text_allowlist.2 "a@b".toList '@' (by decide) (by decide)⟩

/-- C5 witness: a plan with [S1: 2 versions, selected = version 1 with 2
chunks; S2: no versions; S3: 1 version with 1 chunk] merges to exactly
the selected (not the most recent) files, in order. -/
theorem merge_selected_version_witness :
    files_to_merge
      [⟨1, ['a'], 2, [["s1v1c1", "s1v1c2"], ["s1v2c1"]], 0, 0, some "s1v1c1"⟩,
       TaskSegment.mk0 2 ['b'],
       ⟨3, ['c'], 1, [["s3v1c1"]], 0, 0, some "s3v1c1"⟩] =
    specMergeFiles
      [⟨1, ['a'], 2, [["s1v1c1", "s1v1c2"], ["s1v2c1"]], 0, 0, some "s1v1c1"⟩,
       TaskSegment.mk0 2 ['b'],
       ⟨3, ['c'], 1, [["s3v1c1"]], 0, 0, some "s3v1c1"⟩] ∧
    specMergeFiles
      [⟨1, ['a'], 2, [["s1v1c1", "s1v1c2"], ["s1v2c1"]], 0, 0, some "s1v1c1"⟩,
       TaskSegment.mk0 2 ['b'],
       ⟨3, ['c'], 1, [["s3v1c1"]], 0, 0, some "s3v1c1"⟩] =
      ["s1v1c1", "s1v1c2", "s3v1c1"] :=
  ⟨merge_selected_version.1
      [⟨1, ['a'], 2, [["s1v1c1", "s1v1c2"], ["s1v2c1"]], 0, 0, some "s1v1c1"⟩,
       TaskSegment.mk0 2 ['b'],
       ⟨3, ['c'], 1, [["s3v1c1"]], 0, 0, some "s3v1c1"⟩] (by decide),
   by decide⟩

/-- C9 witness: requesting speed 3 clamps the tempo ratio into [0.5, 2]. -/
theorem speed_clamp_spec_witness :
    speed_change_atempo 3 = max 0.5 (min 2 3) ∧
    0.5 ≤ speed_change_atempo 3 ∧ speed_change_atempo 3 ≤ 2 :=
  speed_clamp_spec.1 3 (Or.inr (by norm_num))

/-- C10 witness: on a segment with one version of two chunks, selecting
(1, 2) succeeds and selecting the out-of-range (3, 1) fails and leaves the
segment unchanged. -/
theorem set_audio_spec_witness :
    ((⟨1, ['x'], 1, [["a", "b"]], 0, 0, some "a"⟩ : TaskSegment).set_audio 1 2).2 = true ∧
    ((⟨1, ['x'], 1, [["a", "b"]], 0, 0, some "a"⟩ : TaskSegment).set_audio 3 1).2 = false ∧
    ((⟨1, ['x'], 1, [["a", "b"]], 0, 0, some "a"⟩ : TaskSegment).set_audio 3 1).1 =
      (⟨1, ['x'], 1, [["a", "b"]], 0, 0, some "a"⟩ : TaskSegment) :=
  ⟨(set_audio_spec (⟨1, ['x'], 1, [["a", "b"]], 0, 0, some "a"⟩ : TaskSegment) 1 2).1.mpr
      (by decide),
   by decide,
   (set_audio_spec (⟨1, ['x'], 1, [["a", "b"]], 0, 0, some "a"⟩ : TaskSegment) 3 1).2.1
      (by decide)⟩

end CosyVoice
